import Mathlib

/-!
# cpu-monitoring-upgraded: `cpu_load.c`

A shallow embedding of the host-metrics sampler in `src/cpu_load.c` and the properties of it
that its specification states.
-/

set_option maxRecDepth 100000

namespace CpuLoad

/-! ## IEEE-754 binary64 arithmetic (`double`)

Every `double` the program computes comes from an unsigned integer, a positive integer constant,
or a quotient/product of such values, so only the non-negative part of the format is modelled:
NaN, +infinity and the finite non-negative values (as exact rationals). Operations round to
nearest, ties to even, with gradual underflow (quantum `2 ^ -1074`) and overflow to infinity. -/

/-- Non-negative IEEE-754 binary64 values. -/
inductive Double where
  | nan : Double
  | inf : Double
  | fin (q : ℚ) : Double
deriving DecidableEq

/-- Nearest integer to `x`, ties going to the even neighbour. -/
def roundHalfEven (x : ℚ) : ℤ :=
  let f := ⌊x⌋
  if x - f < 1 / 2 then f
  else if 1 / 2 < x - f then f + 1
  else if f % 2 = 0 then f else f + 1

/-- Exponent of the spacing of binary64 values around `x`: 53 significant bits, never finer
than the subnormal spacing `2 ^ -1074`. -/
def ulpExp (x : ℚ) : ℤ := max (Int.log 2 x - 52) (-1074)

/-- Round-to-nearest-even of a non-negative rational to the binary64 grid (unbounded above). -/
def roundNearest (x : ℚ) : ℚ := (roundHalfEven (x / 2 ^ ulpExp x) : ℚ) * 2 ^ ulpExp x

/-- Correctly rounded binary64 result of the exact non-negative value `x`. -/
def roundToDouble (x : ℚ) : Double :=
  if 2 ^ 1024 ≤ roundNearest x then Double.inf else Double.fin (roundNearest x)

/-- Conversion `(double)n` of an `unsigned long long`. -/
def Double.ofU64 (n : ℕ) : Double := roundToDouble n

/-- Conversion of a non-negative `int` constant to `double`. -/
def Double.ofInt (n : ℕ) : Double := roundToDouble n

/-- Binary64 division `a / b` on non-negative operands. -/
def Double.div : Double → Double → Double
  | Double.nan, _ => Double.nan
  | _, Double.nan => Double.nan
  | Double.inf, Double.inf => Double.nan
  | Double.inf, Double.fin _ => Double.inf
  | Double.fin _, Double.inf => Double.fin 0
  | Double.fin a, Double.fin b =>
    if b = 0 then (if a = 0 then Double.nan else Double.inf) else roundToDouble (a / b)

/-- Binary64 multiplication `a * b` on non-negative operands. -/
def Double.mul : Double → Double → Double
  | Double.nan, _ => Double.nan
  | _, Double.nan => Double.nan
  | Double.inf, Double.inf => Double.inf
  | Double.inf, Double.fin b => if b = 0 then Double.nan else Double.inf
  | Double.fin a, Double.inf => if a = 0 then Double.nan else Double.inf
  | Double.fin a, Double.fin b => roundToDouble (a * b)

/-! ## `unsigned long long` arithmetic -/

/-- Wrapping 64-bit addition. -/
def add64 (a b : ℕ) : ℕ := (a + b) % 2 ^ 64

/-- Wrapping 64-bit subtraction. -/
def sub64 (a b : ℕ) : ℕ := (a % 2 ^ 64 + (2 ^ 64 - b % 2 ^ 64)) % 2 ^ 64

/-- Wrapping 64-bit multiplication. -/
def mul64 (a b : ℕ) : ℕ := (a * b) % 2 ^ 64

/-! ## CPU tick counters and the load percentage -/

/-- The `CPUStats` struct: seven `unsigned long long` tick counters. -/
structure CPUStats where
  user : ℕ
  nice : ℕ
  system : ℕ
  idle : ℕ
  iowait : ℕ
  irq : ℕ
  softirq : ℕ
deriving DecidableEq, Repr

/-- The sum `user + nice + system + idle + iowait + irq + softirq` as the code computes it,
in 64-bit wrapping arithmetic. -/
def total_time (s : CPUStats) : ℕ :=
  add64 (add64 (add64 (add64 (add64 (add64 s.user s.nice) s.system) s.idle) s.iowait) s.irq)
    s.softirq

/-- The local `total_time_diff` of `calculate_cpu_load_percentage`. -/
def total_time_diff (prev curr : CPUStats) : ℕ := sub64 (total_time curr) (total_time prev)

/-- The local `idle_time_diff` of `calculate_cpu_load_percentage`. -/
def idle_time_diff (prev curr : CPUStats) : ℕ := sub64 curr.idle prev.idle

/-- `calculate_cpu_load_percentage`:
`((double)(total_time_diff - idle_time_diff) / total_time_diff) * 100`. -/
def calculate_cpu_load_percentage (prev curr : CPUStats) : Double :=
  let prev_total_time := total_time prev
  let curr_total_time := total_time curr
  let total_time_diff := sub64 curr_total_time prev_total_time
  let idle_time_diff := sub64 curr.idle prev.idle
  Double.mul
    (Double.div (Double.ofU64 (sub64 total_time_diff idle_time_diff))
      (Double.ofU64 total_time_diff))
    (Double.ofInt 100)

/-! ### The specification's formula -/

/-- Exact sum of the seven counters of a tuple. -/
def CPUStats.sum (s : CPUStats) : ℕ :=
  s.user + s.nice + s.system + s.idle + s.iowait + s.irq + s.softirq

/-- Every counter of `curr` is at least the corresponding counter of `prev`. -/
abbrev NonDecreasing (prev curr : CPUStats) : Prop :=
  prev.user ≤ curr.user ∧ prev.nice ≤ curr.nice ∧ prev.system ≤ curr.system ∧
  prev.idle ≤ curr.idle ∧ prev.iowait ≤ curr.iowait ∧ prev.irq ≤ curr.irq ∧
  prev.softirq ≤ curr.softirq

/-- The specification's `total_diff = sum(curr.*) - sum(prev.*)`. -/
def spec_total_diff (prev curr : CPUStats) : ℕ := curr.sum - prev.sum

/-- The specification's `idle_diff = curr.idle - prev.idle`. -/
def spec_idle_diff (prev curr : CPUStats) : ℕ := curr.idle - prev.idle

/-- The specification's `(total_diff - idle_diff) / total_diff * 100`, evaluated in `double`. -/
def spec_load (total_diff idle_diff : ℕ) : Double :=
  Double.mul (Double.div (Double.ofU64 (total_diff - idle_diff)) (Double.ofU64 total_diff))
    (Double.ofInt 100)

/-! ## Network report of the sampling loop -/

/-- The two `double` arguments printed as `RX Speed` and `TX Speed` by one loop iteration. -/
structure NetReport where
  rx : Double
  tx : Double
deriving DecidableEq

/-- The network part of one iteration of the loop in `main`: the counter differences and their
conversion, `(double)rx_diff / (1024 * 1024 / 8)` and `(double)tx_diff / (1024 * 1024 / 9)`
(the divisors are `int` expressions, with integer division). -/
def network_report (prev_rx_speed prev_tx_speed curr_rx_speed curr_tx_speed : ℕ) : NetReport :=
  let rx_diff := sub64 curr_rx_speed prev_rx_speed
  let tx_diff := sub64 curr_tx_speed prev_tx_speed
  { rx := Double.div (Double.ofU64 rx_diff) (Double.ofInt (1024 * 1024 / 8))
    tx := Double.div (Double.ofU64 tx_diff) (Double.ofInt (1024 * 1024 / 9)) }

/-! ## C strings, `fgets` and `sscanf`

Buffers and streams are lists of characters. A buffer holds the C string that ends before its
first NUL; the end of a list also ends the string. -/

/-- The terminating NUL character. -/
def NUL : Char := Char.ofNat 0

/-- The C string held in a buffer: the characters before the first NUL. -/
def c_str (buf : List Char) : List Char := buf.takeWhile (fun c => c != NUL)

/-- `isspace` in the "C" locale: space, `\t`, `\n`, `\v`, `\f`, `\r`. -/
def isspace (c : Char) : Bool :=
  c == ' ' || c == '\t' || c == '\n' || c == Char.ofNat 11 || c == Char.ofNat 12 || c == '\r'

/-- `isdigit`. -/
def isdigit (c : Char) : Bool := decide ('0' ≤ c) && decide (c ≤ '9')

/-- `strcmp(a, b) == 0`. -/
def strcmp_eq (a b : List Char) : Bool := c_str a == c_str b

/-- `strncmp(a, b, n) == 0`: the first `n` characters agree, or both strings end earlier after
agreeing that far. -/
def strncmp_eq : ℕ → List Char → List Char → Bool
  | 0, _, _ => true
  | n + 1, a, b =>
    let ca := a.headD NUL
    let cb := b.headD NUL
    if ca != cb then false
    else if ca == NUL then true
    else strncmp_eq n a.tail b.tail

/-- One `fgets` read with room for `room` characters: characters are taken up to and including
the first newline, or until the room or the stream is used up. Returns the characters read and
the rest of the stream. -/
def fgets_aux : ℕ → List Char → List Char × List Char
  | 0, s => ([], s)
  | _ + 1, [] => ([], [])
  | room + 1, c :: s =>
    if c = '\n' then ([c], s)
    else (c :: (fgets_aux room s).1, (fgets_aux room s).2)

/-- `fgets(line, size, file)`: `none` at end of file, otherwise the line read (at most
`size - 1` characters) and the rest of the stream. -/
def fgets (size : ℕ) (stream : List Char) : Option (List Char × List Char) :=
  match stream with
  | [] => none
  | _ :: _ => some (fgets_aux (size - 1) stream)

/-- The successive results of `fgets(line, 256, file)` until it reports end of file, computed
with `fuel` reads at most. -/
def fgets_lines_aux : ℕ → List Char → List (List Char)
  | 0, _ => []
  | fuel + 1, stream =>
    match fgets 256 stream with
    | none => []
    | some (line, rest) => line :: fgets_lines_aux fuel rest

/-- The lines that a loop `while (fgets(line, sizeof(line), file))` with a 256-byte buffer sees.
Every read of a non-empty stream consumes a character, so `stream.length` reads suffice. -/
def fgets_lines (stream : List Char) : List (List Char) :=
  fgets_lines_aux stream.length stream

/-- The directives of the two `sscanf` formats in the program. -/
inductive Directive where
  /-- white space in the format: skips any amount of input white space -/
  | space : Directive
  /-- an ordinary character, which must match the next input character -/
  | lit (c : Char) : Directive
  /-- the conversions `%d`, `%u` and `%llu`; with `suppress` the forms `%*d` and `%*u` -/
  | int (suppress : Bool) : Directive
  /-- the conversion `%N[^c]` with field width `N` -/
  | scanset_not (width : ℕ) (c : Char) : Directive
deriving DecidableEq

/-- A value stored through one of the pointer arguments of `sscanf`. -/
inductive Arg where
  | ull (n : ℕ) : Arg
  | str (s : List Char) : Arg
deriving DecidableEq

/-- The outcome of one directive. -/
inductive Step where
  | ok (assigned : Option Arg) (rest : List Char) : Step
  | matching_failure : Step
  | input_failure : Step

/-- Decimal value of a digit sequence. -/
def digits_value (digits : List Char) : ℕ :=
  digits.foldl (fun acc c => 10 * acc + (c.toNat - '0'.toNat)) 0

/-- The `unsigned long long` stored by `%llu` (as `strtoull`): a magnitude that does not fit
gives `ULLONG_MAX`, a leading `-` negates modulo `2 ^ 64`. -/
def strtoull (neg : Bool) (digits : List Char) : ℕ :=
  let v := digits_value digits
  if 2 ^ 64 ≤ v then 2 ^ 64 - 1
  else if neg then (2 ^ 64 - v) % 2 ^ 64
  else v

/-- An integer conversion: skip white space, read an optional sign and the decimal digits. -/
def scan_int (suppress : Bool) (s : List Char) : Step :=
  match s.dropWhile isspace with
  | [] => Step.input_failure
  | c :: t =>
    let body := if c == '-' || c == '+' then t else c :: t
    let digits := body.takeWhile isdigit
    if digits = [] then Step.matching_failure
    else Step.ok (if suppress then none else some (Arg.ull (strtoull (c == '-') digits)))
      (body.dropWhile isdigit)

/-- The conversion `%N[^x]`: the longest run of at most `width` characters other than `x`,
which must not be empty; leading white space is not skipped. -/
def scan_set_not (width : ℕ) (x : Char) (s : List Char) : Step :=
  match s with
  | [] => Step.input_failure
  | _ :: _ =>
    let item := (s.take width).takeWhile (fun c => c != x)
    if item = [] then Step.matching_failure
    else Step.ok (some (Arg.str item)) (s.drop item.length)

/-- Execution of one directive on the remaining input. -/
def Directive.step : Directive → List Char → Step
  | Directive.space, s => Step.ok none (s.dropWhile isspace)
  | Directive.lit _, [] => Step.input_failure
  | Directive.lit c, d :: s => if d = c then Step.ok none s else Step.matching_failure
  | Directive.int suppress, s => scan_int suppress s
  | Directive.scanset_not width c, s => scan_set_not width c s

/-- The directives are executed in order until one fails. The result is the return value of
`sscanf` (the number of values stored, or `EOF = -1` when the input ends before anything was
stored) and the values stored, in the order of the pointer arguments. -/
def sscanf_loop : List Directive → List Char → List Arg → ℤ × List Arg
  | [], _, stored => (stored.length, stored)
  | d :: ds, s, stored =>
    match d.step s with
    | Step.ok none rest => sscanf_loop ds rest stored
    | Step.ok (some a) rest => sscanf_loop ds rest (stored ++ [a])
    | Step.matching_failure => (stored.length, stored)
    | Step.input_failure => (if stored = [] then -1 else stored.length, stored)

/-- `sscanf(str, format, ...)`. -/
def sscanf (str : List Char) (format : List Directive) : ℤ × List Arg :=
  sscanf_loop format (c_str str) []

/-! ## `get_cpu_count` and `get_cpu_stats` -/

/-- The counting loop of `get_cpu_count` over the lines read. -/
def get_cpu_count_loop : List (List Char) → ℤ → ℤ
  | [], count => count
  | line :: rest, count =>
    if strncmp_eq 9 line "processor".toList then get_cpu_count_loop rest (count + 1)
    else get_cpu_count_loop rest count

/-- `get_cpu_count`; `cpuinfo` is the content of `/proc/cpuinfo`, `none` when it cannot be
opened. -/
def get_cpu_count (cpuinfo : Option (List Char)) : ℤ :=
  match cpuinfo with
  | none => -1
  | some file => get_cpu_count_loop (fgets_lines file) 0

/-- The format `"cpu%*d %llu %llu %llu %llu %llu %llu %llu"`. -/
def cpu_format : List Directive :=
  [Directive.lit 'c', Directive.lit 'p', Directive.lit 'u', Directive.int true,
   Directive.space, Directive.int false, Directive.space, Directive.int false,
   Directive.space, Directive.int false, Directive.space, Directive.int false,
   Directive.space, Directive.int false, Directive.space, Directive.int false,
   Directive.space, Directive.int false]

/-- The numbers among the stored values. -/
def Arg.ulls (stored : List Arg) : List ℕ :=
  stored.filterMap (fun a => match a with
    | Arg.ull n => some n
    | Arg.str _ => none)

/-- The effect of the `sscanf` call of `get_cpu_stats` on the entry whose seven fields it is
given as pointers, in the order `user, nice, system, idle, iowait, irq, softirq`: the `k`-th
stored value goes to the `k`-th field, fields beyond the stored values keep their content. -/
def scan_cpu_line (line : List Char) (entry : CPUStats) : CPUStats :=
  let vals := Arg.ulls (sscanf line cpu_format).2
  { user := vals.getD 0 entry.user
    nice := vals.getD 1 entry.nice
    system := vals.getD 2 entry.system
    idle := vals.getD 3 entry.idle
    iowait := vals.getD 4 entry.iowait
    irq := vals.getD 5 entry.irq
    softirq := vals.getD 6 entry.softirq }

/-- The array `stats` with entry `idx` replaced. -/
def write_entry (stats : ℕ → CPUStats) (idx : ℕ) (entry : CPUStats) : ℕ → CPUStats :=
  fun k => if k = idx then entry else stats k

/-- The loop `while (fgets(...) && cpu_idx <= cpu_count)` of `get_cpu_stats` over the lines
read. `stats` is the memory reached through the pointer, indexed by entry; `cpu_idx` never
exceeds `cpu_count + 1`. -/
def get_cpu_stats_loop (cpu_count : ℤ) : List (List Char) → (ℕ → CPUStats) → ℕ → (ℕ → CPUStats)
  | [], stats, _ => stats
  | line :: rest, stats, cpu_idx =>
    if (cpu_idx : ℤ) ≤ cpu_count then
      if strncmp_eq 3 line "cpu".toList then
        get_cpu_stats_loop cpu_count rest
          (write_entry stats cpu_idx (scan_cpu_line line (stats cpu_idx))) (cpu_idx + 1)
      else get_cpu_stats_loop cpu_count rest stats cpu_idx
    else stats

/-- `get_cpu_stats`; `proc_stat` is the content of `/proc/stat`, `none` when it cannot be
opened. Returns the return code and the array after the call. -/
def get_cpu_stats (proc_stat : Option (List Char)) (stats : ℕ → CPUStats) (cpu_count : ℤ) :
    ℤ × (ℕ → CPUStats) :=
  match proc_stat with
  | none => (1, stats)
  | some file => (0, get_cpu_stats_loop cpu_count (fgets_lines file) stats 0)

/-! ## `get_disk_space` -/

/-- The fields of `struct statvfs` that the program reads (`unsigned long` values). -/
structure StatVfs where
  f_frsize : ℕ
  f_blocks : ℕ
  f_bfree : ℕ
deriving DecidableEq

/-- `get_disk_space`; `statvfs_root` is the result of `statvfs("/", &stat)`, `none` when the
call fails. Returns the return code and the two outputs after the call. -/
def get_disk_space (statvfs_root : Option StatVfs) (total_space free_space : ℕ) : ℤ × ℕ × ℕ :=
  match statvfs_root with
  | none => (1, total_space, free_space)
  | some stat => (0, mul64 stat.f_frsize stat.f_blocks, mul64 stat.f_frsize stat.f_bfree)

/-! ## `get_network_speed` -/

/-- The format `"%15[^:]: %*u %llu %*u %*u %*u %*u %*u %*u %*u %llu"`. -/
def net_format : List Directive :=
  [Directive.scanset_not 15 ':', Directive.lit ':',
   Directive.space, Directive.int true, Directive.space, Directive.int false,
   Directive.space, Directive.int true, Directive.space, Directive.int true,
   Directive.space, Directive.int true, Directive.space, Directive.int true,
   Directive.space, Directive.int true, Directive.space, Directive.int true,
   Directive.space, Directive.int true, Directive.space, Directive.int false]

/-- The interface name that the `sscanf` call of `get_network_speed` stores in `if_name`. -/
def parsed_if_name (line : List Char) : Option (List Char) :=
  match (sscanf line net_format).2 with
  | Arg.str name :: _ => some name
  | _ => none

/-- The loop of `get_network_speed` over the lines read; `rx_speed` and `tx_speed` are the
contents of the two outputs. When `sscanf` returns 3 the values stored are `if_name`,
`rx_bytes` and `tx_bytes`, in this order; leaving the function with the new contents is the
`break`. -/
def get_network_speed_loop (iface : List Char) : List (List Char) → ℕ → ℕ → ℕ × ℕ
  | [], rx_speed, tx_speed => (rx_speed, tx_speed)
  | line :: rest, rx_speed, tx_speed =>
    if (sscanf line net_format).1 = 3 then
      match (sscanf line net_format).2 with
      | [Arg.str if_name, Arg.ull rx_bytes, Arg.ull tx_bytes] =>
        if strcmp_eq if_name iface then (rx_bytes, tx_bytes)
        else get_network_speed_loop iface rest rx_speed tx_speed
      | _ => get_network_speed_loop iface rest rx_speed tx_speed
    else get_network_speed_loop iface rest rx_speed tx_speed

/-- `get_network_speed`; `proc_net_dev` is the content of `/proc/net/dev`, `none` when it cannot
be opened. Returns the return code and the two outputs after the call. -/
def get_network_speed (proc_net_dev : Option (List Char)) (iface : List Char)
    (rx_speed tx_speed : ℕ) : ℤ × ℕ × ℕ :=
  match proc_net_dev with
  | none => (1, rx_speed, tx_speed)
  | some file => (0, get_network_speed_loop iface (fgets_lines file) rx_speed tx_speed)

/-! ## `get_first_network_iface` and the start of `main` -/

/-- The address family `AF_INET` (its value on Linux). -/
def AF_INET : ℕ := 2

/-- `struct sockaddr`, as far as the program reads it. -/
structure SockAddr where
  sa_family : ℕ
deriving DecidableEq

/-- One entry of the list returned by `getifaddrs`; `ifa_addr` is `none` for a NULL pointer. -/
structure IfAddrs where
  ifa_name : List Char
  ifa_addr : Option SockAddr
deriving DecidableEq

/-- The test `ifa->ifa_addr && ifa->ifa_addr->sa_family == AF_INET`. -/
def IfAddrs.is_inet (ifa : IfAddrs) : Bool :=
  match ifa.ifa_addr with
  | none => false
  | some addr => addr.sa_family == AF_INET

/-- The `for` loop of `get_first_network_iface` along `ifa_next`. -/
def get_first_network_iface_loop : List IfAddrs → Option (List Char)
  | [] => none
  | ifa :: next =>
    if ifa.is_inet then some ifa.ifa_name else get_first_network_iface_loop next

/-- `get_first_network_iface`; `ifaddr` is the list produced by `getifaddrs`, `none` when that
call fails. The result is the copied name, `none` for NULL. -/
def get_first_network_iface (ifaddr : Option (List IfAddrs)) : Option (List Char) :=
  match ifaddr with
  | none => none
  | some list => get_first_network_iface_loop list

/-- How the start of `main` ends. -/
inductive Startup where
  /-- `return code` before the sampling loop is entered -/
  | exit (code : ℤ) : Startup
  /-- the `while (1)` sampling loop is entered for interface `iface` -/
  | sampling (cpu_count : ℤ) (iface : List Char) : Startup
deriving DecidableEq

/-- The part of `main` before the sampling loop. -/
def main_startup (cpuinfo : Option (List Char)) (ifaddr : Option (List IfAddrs)) : Startup :=
  let cpu_count := get_cpu_count cpuinfo
  if cpu_count < 1 then Startup.exit 1
  else
    match get_first_network_iface ifaddr with
    | none => Startup.exit 1
    | some iface => Startup.sampling cpu_count iface

/-! ## Notions used to state the claims -/

/-- A newline-terminated text line that fits the 256-byte read buffer of `fgets`. -/
def is_text_line (l : List Char) : Bool :=
  decide (l.length < 256) && (l.getLast? == some '\n') && !(l.dropLast.contains '\n')

/-- The lines of a text that begin with the prefix `cpu`, in order of appearance. -/
def cpu_lines (ls : List (List Char)) : List (List Char) :=
  ls.filter (fun l => decide ("cpu".toList <+: l))

/-- The `sscanf` call of `get_network_speed` stores an interface name from `line` and `strcmp`
finds it equal to `iface`. -/
def name_matches (line iface : List Char) : Bool :=
  match parsed_if_name line with
  | some name => strcmp_eq name iface
  | none => false

/-- The entry has an address whose family is IPv4. -/
def IfAddrs.HasIPv4 (ifa : IfAddrs) : Prop :=
  ∃ addr : SockAddr, ifa.ifa_addr = some addr ∧ addr.sa_family = AF_INET

/-- The specification's worked example, earlier snapshot. -/
def example_prev : CPUStats :=
  { user := 100, nice := 0, system := 50, idle := 850, iowait := 0, irq := 0, softirq := 0 }

/-- The specification's worked example, later snapshot. -/
def example_curr : CPUStats :=
  { user := 110, nice := 0, system := 60, idle := 860, iowait := 0, irq := 0, softirq := 0 }

/-! ## Concrete inputs -/

/-- An entry standing for whatever the array held before a call. -/
def stale_entry : CPUStats :=
  { user := 99, nice := 99, system := 99, idle := 99, iowait := 99, irq := 99, softirq := 99 }

/-- A CPU accounting text: the aggregate line, two per-core lines and another line. -/
def proc_stat_lines : List (List Char) :=
  ["cpu  1 2 3 4 5 6 7\n".toList, "cpu0 1 2 3 4 5 6 7\n".toList, "cpu1 8 9 10 11 12 13 14\n".toList,
   "intr 5\n".toList]

/-- A per-interface counter table with the two heading lines and one interface. -/
def proc_net_dev_example : List Char :=
  ("Inter-|   Receive                            |  Transmit\n" ++
   " face |bytes packets errs drop fifo frame compressed multicast|bytes packets errs\n" ++
   "eth0: 1 2 3 4 5 6 7 8 9 10 11 12 13 14 15 16\n").toList

/-! # Proofs -/

/-! ### Rounding to the binary64 grid -/

theorem roundHalfEven_intCast (n : ℤ) : roundHalfEven (n : ℚ) = n := by
  simp [roundHalfEven]

theorem floor_le_roundHalfEven (x : ℚ) : ⌊x⌋ ≤ roundHalfEven x := by
  unfold roundHalfEven
  simp only
  split_ifs <;> omega

theorem roundHalfEven_le_floor_succ (x : ℚ) : roundHalfEven x ≤ ⌊x⌋ + 1 := by
  unfold roundHalfEven
  simp only
  split_ifs <;> omega

theorem roundHalfEven_mono {x y : ℚ} (h : x ≤ y) : roundHalfEven x ≤ roundHalfEven y := by
  have hf : ⌊x⌋ ≤ ⌊y⌋ := Int.floor_mono h
  rcases lt_or_eq_of_le hf with hlt | heq
  · have h1 := roundHalfEven_le_floor_succ x
    have h2 := floor_le_roundHalfEven y
    omega
  · unfold roundHalfEven
    simp only
    rw [← heq]
    split_ifs <;> first | omega | (exfalso; linarith)

theorem roundHalfEven_nonneg {x : ℚ} (h : 0 ≤ x) : 0 ≤ roundHalfEven x := by
  have := roundHalfEven_mono h
  rwa [show (0 : ℚ) = ((0 : ℤ) : ℚ) by simp, roundHalfEven_intCast] at this

theorem ulpExp_mono {x y : ℚ} (hx : 0 < x) (h : x ≤ y) : ulpExp x ≤ ulpExp y := by
  unfold ulpExp
  have := Int.log_mono_right (b := 2) hx h
  omega

/-- rounding at a fixed quantum is monotone -/
theorem roundAt_mono (p : ℤ) {x y : ℚ} (h : x ≤ y) :
    (roundHalfEven (x / 2 ^ p) : ℚ) * 2 ^ p ≤ (roundHalfEven (y / 2 ^ p) : ℚ) * 2 ^ p := by
  have hp : (0 : ℚ) < 2 ^ p := by positivity
  apply mul_le_mul_of_nonneg_right _ hp.le
  exact_mod_cast roundHalfEven_mono (div_le_div_of_nonneg_right h hp.le)

theorem roundAt_zpow (p e : ℤ) (h : p ≤ e) :
    (roundHalfEven ((2 : ℚ) ^ e / 2 ^ p) : ℚ) * 2 ^ p = 2 ^ e := by
  have h2 : (2 : ℚ) ≠ 0 := by norm_num
  obtain ⟨k, hk⟩ := Int.eq_ofNat_of_zero_le (sub_nonneg.mpr h)
  have : (2 : ℚ) ^ e / 2 ^ p = ((2 ^ k : ℤ) : ℚ) := by
    rw [← zpow_sub₀ h2, hk]; simp
  rw [this, roundHalfEven_intCast, ← this]
  field_simp

theorem roundNearest_mono {x y : ℚ} (hx : 0 ≤ x) (h : x ≤ y) :
    roundNearest x ≤ roundNearest y := by
  rcases hx.eq_or_lt with h0 | hpos
  · subst h0
    have : roundNearest 0 = 0 := by simp [roundNearest, roundHalfEven]
    rw [this]
    unfold roundNearest
    have := roundHalfEven_nonneg (x := y / 2 ^ ulpExp y) (by positivity)
    have h1 : (0 : ℚ) ≤ (roundHalfEven (y / 2 ^ ulpExp y) : ℚ) := by exact_mod_cast this
    positivity
  · have hy : 0 < y := lt_of_lt_of_le hpos h
    rcases (ulpExp_mono hpos h).eq_or_lt with he | hlt
    · unfold roundNearest
      rw [he]
      exact roundAt_mono _ h
    · have hlog : Int.log 2 x < Int.log 2 y := by
        unfold ulpExp at hlt; omega
      have hpy : ulpExp y ≤ Int.log 2 y := by unfold ulpExp at hlt ⊢; omega
      have hpx : ulpExp x ≤ Int.log 2 y := by omega
      have hB1 : x ≤ (2 : ℚ) ^ Int.log 2 y := by
        have h1 := Int.lt_zpow_succ_log_self (b := 2) (by norm_num) x
        have h2 : ((2 : ℕ) : ℚ) ^ (Int.log 2 x + 1) ≤ ((2 : ℕ) : ℚ) ^ Int.log 2 y :=
          zpow_le_zpow_right₀ (by norm_num) (by omega)
        push_cast at h1 h2
        linarith
      have hB2 : (2 : ℚ) ^ Int.log 2 y ≤ y := by
        have := Int.zpow_log_le_self (b := 2) (by norm_num) hy
        exact_mod_cast this
      calc roundNearest x ≤ _ := roundAt_mono _ hB1
        _ = 2 ^ Int.log 2 y := roundAt_zpow _ _ hpx
        _ = _ := (roundAt_zpow _ _ hpy).symm
        _ ≤ roundNearest y := roundAt_mono _ hB2

/-- values `m * 2 ^ e` with a 53-bit significand and `e ≥ -1074` are fixed by rounding -/
theorem roundNearest_of_representable (m : ℕ) (e : ℤ) (hm : m < 2 ^ 53) (he : -1074 ≤ e) :
    roundNearest ((m : ℚ) * 2 ^ e) = (m : ℚ) * 2 ^ e := by
  have h2 : (2 : ℚ) ≠ 0 := by norm_num
  rcases Nat.eq_zero_or_pos m with h0 | hpos
  · subst h0; simp [roundNearest, roundHalfEven]
  have hx : (0 : ℚ) < (m : ℚ) * 2 ^ e := by positivity
  have hp : ulpExp ((m : ℚ) * 2 ^ e) ≤ e := by
    unfold ulpExp
    have : Int.log 2 ((m : ℚ) * 2 ^ e) < e + 53 := by
      rw [← Int.lt_zpow_iff_log_lt (by norm_num) hx]
      have : ((2 : ℕ) : ℚ) ^ (e + 53) = 2 ^ 53 * 2 ^ e := by
        rw [zpow_add₀ (by norm_num)]; push_cast; ring
      rw [this]
      apply mul_lt_mul_of_pos_right _ (by positivity)
      exact_mod_cast hm
    omega
  unfold roundNearest
  generalize ulpExp ((m : ℚ) * 2 ^ e) = p at hp
  obtain ⟨k, hk⟩ := Int.eq_ofNat_of_zero_le (sub_nonneg.mpr hp)
  have : (m : ℚ) * 2 ^ e / 2 ^ p = (((m * 2 ^ k : ℕ) : ℤ) : ℚ) := by
    rw [mul_div_assoc, ← zpow_sub₀ h2, hk]; simp
  rw [this, roundHalfEven_intCast, ← this]
  field_simp


/-! ### Facts about `double` conversion of small values -/

theorem roundNearest_natCast (n : ℕ) (hn : n < 2 ^ 53) : roundNearest (n : ℚ) = n := by
  have := roundNearest_of_representable n 0 hn (by norm_num)
  simpa using this

theorem roundNearest_zero : roundNearest 0 = 0 := by
  simpa using roundNearest_natCast 0 (by norm_num)

theorem roundNearest_nonneg {x : ℚ} (hx : 0 ≤ x) : 0 ≤ roundNearest x := by
  have := roundNearest_mono le_rfl hx
  rwa [roundNearest_zero] at this

theorem roundNearest_two_pow_64 : roundNearest ((2 : ℚ) ^ 64) = 2 ^ 64 := by
  have h : ((1 : ℕ) : ℚ) * 2 ^ (64 : ℤ) = 2 ^ 64 := by norm_num
  have := roundNearest_of_representable 1 64 (by norm_num) (by norm_num)
  rwa [h] at this

theorem roundToDouble_of_le {x b : ℚ} (hx : 0 ≤ x) (hb : roundNearest b = b)
    (hxb : x ≤ b) (hb' : b < 2 ^ 1024) :
    roundToDouble x = Double.fin (roundNearest x) ∧ 0 ≤ roundNearest x ∧ roundNearest x ≤ b := by
  have h1 : roundNearest x ≤ b := hb ▸ roundNearest_mono hx hxb
  refine ⟨?_, roundNearest_nonneg hx, h1⟩
  unfold roundToDouble
  rw [if_neg (not_le.mpr (lt_of_le_of_lt h1 hb'))]

theorem roundToDouble_natCast (n : ℕ) (hn : n < 2 ^ 53) : roundToDouble (n : ℚ) = Double.fin n := by
  unfold roundToDouble
  rw [roundNearest_natCast n hn, if_neg]
  rw [not_le]
  calc (n : ℚ) < 2 ^ 53 := by exact_mod_cast hn
    _ < 2 ^ 1024 := by norm_num

theorem ofU64_fin (n : ℕ) (hn : n < 2 ^ 64) :
    Double.ofU64 n = Double.fin (roundNearest n) ∧ 0 ≤ roundNearest (n : ℚ) ∧
      roundNearest (n : ℚ) ≤ 2 ^ 64 := by
  have hle : (n : ℚ) ≤ 2 ^ 64 := by exact_mod_cast hn.le
  exact roundToDouble_of_le (Nat.cast_nonneg n) roundNearest_two_pow_64 hle (by norm_num)

theorem roundNearest_pos_of_pos (n : ℕ) (hn : 0 < n) : 1 ≤ roundNearest (n : ℚ) := by
  have h1 : roundNearest ((1 : ℕ) : ℚ) = (1 : ℕ) := roundNearest_natCast 1 (by norm_num)
  have := roundNearest_mono (x := ((1 : ℕ) : ℚ)) (y := n) (by norm_num) (by exact_mod_cast hn)
  rw [h1] at this
  exact_mod_cast this

theorem ofInt_100 : Double.ofInt 100 = Double.fin 100 := by
  have := roundToDouble_natCast 100 (by norm_num)
  simpa [Double.ofInt] using this

/-- The specification's formula stays between 0 and 100 when `idle_diff ≤ total_diff`. -/
theorem spec_load_bounds (t i : ℕ) (ht : 0 < t) (ht' : t < 2 ^ 64) :
    ∃ v : ℚ, spec_load t i = Double.fin v ∧ 0 ≤ v ∧ v ≤ 100 := by
  obtain ⟨hb, hb0, _⟩ := ofU64_fin t ht'
  obtain ⟨ha, ha0, _⟩ := ofU64_fin (t - i) (lt_of_le_of_lt (Nat.sub_le t i) ht')
  have hbpos : 0 < roundNearest (t : ℚ) := lt_of_lt_of_le one_pos (roundNearest_pos_of_pos t ht)
  have hab : roundNearest ((t - i : ℕ) : ℚ) ≤ roundNearest (t : ℚ) :=
    roundNearest_mono (Nat.cast_nonneg _) (by exact_mod_cast Nat.sub_le t i)
  have h1 : roundNearest ((1 : ℕ) : ℚ) = (1 : ℕ) := roundNearest_natCast 1 (by norm_num)
  have h100 : roundNearest ((100 : ℕ) : ℚ) = (100 : ℕ) := roundNearest_natCast 100 (by norm_num)
  push_cast at h1 h100
  have hq : roundNearest ((t - i : ℕ) : ℚ) / roundNearest (t : ℚ) ≤ 1 :=
    (div_le_one hbpos).mpr hab
  obtain ⟨hd, hd0, hd1⟩ := roundToDouble_of_le (div_nonneg ha0 hb0) h1 hq (by norm_num)
  set q := roundNearest (roundNearest ((t - i : ℕ) : ℚ) / roundNearest (t : ℚ)) with hqdef
  have hm : q * 100 ≤ 100 := by linarith
  obtain ⟨he, he0, he1⟩ := roundToDouble_of_le (by positivity : 0 ≤ q * 100) h100 hm (by norm_num)
  refine ⟨roundNearest (q * 100), ?_, he0, he1⟩
  unfold spec_load
  rw [ha, hb, ofInt_100]
  simp only [Double.div, if_neg hbpos.ne']
  rw [hd]
  simp only [Double.mul]
  exact he

/-! ### Wrapping arithmetic without wrap-around -/

theorem total_time_eq_sum (s : CPUStats) (h : s.sum < 2 ^ 64) : total_time s = s.sum := by
  unfold CPUStats.sum at h
  unfold total_time add64 CPUStats.sum
  omega

theorem sub64_eq_sub (a b : ℕ) (hab : b ≤ a) (ha : a < 2 ^ 64) : sub64 a b = a - b := by
  unfold sub64
  omega

theorem sum_le_of_nonDecreasing {prev curr : CPUStats} (h : NonDecreasing prev curr) :
    prev.sum ≤ curr.sum := by
  obtain ⟨h1, h2, h3, h4, h5, h6, h7⟩ := h
  unfold CPUStats.sum
  omega

theorem idle_diff_le_total_diff {prev curr : CPUStats} (h : NonDecreasing prev curr) :
    spec_idle_diff prev curr ≤ spec_total_diff prev curr := by
  obtain ⟨h1, h2, h3, h4, h5, h6, h7⟩ := h
  unfold spec_idle_diff spec_total_diff CPUStats.sum
  omega

/-- Without wrap-around the code evaluates the specification's formula on the exact
differences. -/
theorem calculate_eq_spec_load (prev curr : CPUStats) (hmono : NonDecreasing prev curr)
    (hsum : curr.sum < 2 ^ 64) :
    calculate_cpu_load_percentage prev curr =
      spec_load (spec_total_diff prev curr) (spec_idle_diff prev curr) := by
  have hle := sum_le_of_nonDecreasing hmono
  have hidle := idle_diff_le_total_diff hmono
  have hi : curr.idle < 2 ^ 64 := by unfold CPUStats.sum at hsum; omega
  unfold calculate_cpu_load_percentage spec_load
  simp only
  rw [total_time_eq_sum curr hsum, total_time_eq_sum prev (lt_of_le_of_lt hle hsum),
    sub64_eq_sub _ _ hle hsum, sub64_eq_sub _ _ hmono.2.2.2.1 hi]
  have ht : curr.sum - prev.sum < 2 ^ 64 := by omega
  unfold spec_idle_diff spec_total_diff at hidle
  rw [sub64_eq_sub _ _ hidle ht]
  rfl

/-- Rounding of a value in the binade `[2 ^ e, 2 ^ (e + 1))` of the normal range. -/
theorem roundNearest_of_binade (x : ℚ) (e : ℤ) (hlo : (2 : ℚ) ^ e ≤ x) (hhi : x < 2 ^ (e + 1))
    (he : -1022 ≤ e) :
    roundNearest x = (roundHalfEven (x / 2 ^ (e - 52)) : ℚ) * 2 ^ (e - 52) := by
  have hx : 0 < x := lt_of_lt_of_le (by positivity) hlo
  have h1 : e ≤ Int.log 2 x := by
    rw [← Int.zpow_le_iff_le_log (by norm_num) hx]
    exact_mod_cast hlo
  have h2 : Int.log 2 x < e + 1 := by
    rw [← Int.lt_zpow_iff_log_lt (by norm_num) hx]
    exact_mod_cast hhi
  have hp : ulpExp x = e - 52 := by
    unfold ulpExp
    omega
  unfold roundNearest
  rw [hp]

/-! ### `fgets` consumes its input line by line -/

theorem fgets_aux_append (room : ℕ) (s : List Char) :
    (fgets_aux room s).1 ++ (fgets_aux room s).2 = s := by
  induction room generalizing s with
  | zero => simp [fgets_aux]
  | succ n ih =>
    cases s with
    | nil => simp [fgets_aux]
    | cons c t =>
      unfold fgets_aux
      split_ifs
      · simp
      · simp [ih t]

theorem fgets_aux_ne_nil (room : ℕ) (c : Char) (t : List Char) :
    (fgets_aux (room + 1) (c :: t)).1 ≠ [] := by
  unfold fgets_aux
  split_ifs <;> simp

theorem fgets_length_lt {stream line rest : List Char} (h : fgets 256 stream = some (line, rest)) :
    rest.length < stream.length := by
  cases stream with
  | nil => simp [fgets] at h
  | cons c t =>
    simp only [fgets, Option.some.injEq] at h
    have h1 := fgets_aux_append 255 (c :: t)
    have h2 := fgets_aux_ne_nil 254 c t
    rw [h] at h1 h2
    simp only at h1 h2
    have h3 : line.length + rest.length = (c :: t).length := by rw [← h1, List.length_append]
    have h4 : 0 < line.length := List.length_pos.mpr h2
    omega

theorem fgets_lines_aux_fuel (fuel₁ fuel₂ : ℕ) (stream : List Char)
    (h₁ : stream.length ≤ fuel₁) (h₂ : stream.length ≤ fuel₂) :
    fgets_lines_aux fuel₁ stream = fgets_lines_aux fuel₂ stream := by
  induction fuel₁ generalizing fuel₂ stream with
  | zero =>
    have hs : stream = [] := List.length_eq_zero.mp (Nat.le_zero.mp h₁)
    subst hs
    cases fuel₂ <;> simp [fgets_lines_aux, fgets]
  | succ n ih =>
    cases fuel₂ with
    | zero =>
      have hs : stream = [] := List.length_eq_zero.mp (Nat.le_zero.mp h₂)
      subst hs
      simp [fgets_lines_aux, fgets]
    | succ m =>
      unfold fgets_lines_aux
      cases hf : fgets 256 stream with
      | none => rfl
      | some p =>
        obtain ⟨line, rest⟩ := p
        have hlt := fgets_length_lt hf
        simp only
        rw [ih m rest (by omega) (by omega)]

/-- The fuel of `fgets_lines` is enough: it satisfies the equation of the reading loop. -/
theorem fgets_lines_unfold (stream : List Char) :
    fgets_lines stream =
      match fgets 256 stream with
      | none => []
      | some (line, rest) => line :: fgets_lines rest := by
  unfold fgets_lines
  cases stream with
  | nil => simp [fgets_lines_aux, fgets]
  | cons c t =>
    simp only [List.length_cons, fgets_lines_aux]
    cases hf : fgets 256 (c :: t) with
    | none => rfl
    | some p =>
      obtain ⟨line, rest⟩ := p
      have hlt := fgets_length_lt hf
      simp only [List.length_cons] at hlt
      simp only
      rw [fgets_lines_aux_fuel t.length rest.length rest (by omega) le_rfl]

theorem fgets_aux_line (body rest : List Char) (room : ℕ) (hb : '\n' ∉ body)
    (hroom : body.length < room) :
    fgets_aux room (body ++ '\n' :: rest) = (body ++ ['\n'], rest) := by
  induction body generalizing room with
  | nil =>
    cases room with
    | zero => omega
    | succ n => simp [fgets_aux]
  | cons c t ih =>
    cases room with
    | zero => omega
    | succ n =>
      have hc : c ≠ '\n' := fun h => hb (by simp [h])
      have ht : '\n' ∉ t := fun h => hb (by simp [h])
      simp only [List.length_cons] at hroom
      have hrec := ih n ht (by omega)
      rw [List.cons_append]
      unfold fgets_aux
      rw [if_neg hc, hrec]
      rfl

theorem is_text_line_split {l : List Char} (h : is_text_line l = true) :
    ∃ body, l = body ++ ['\n'] ∧ '\n' ∉ body ∧ body.length < 255 := by
  simp only [is_text_line, Bool.and_eq_true, decide_eq_true_eq, beq_iff_eq, Bool.not_eq_true',
    List.contains_eq_any_beq, List.any_eq_false, beq_iff_eq] at h
  obtain ⟨⟨hlen, hlast⟩, hno⟩ := h
  refine ⟨l.dropLast, ?_, ?_, ?_⟩
  · exact (List.dropLast_append_getLast? _ hlast).symm
  · intro hmem
    exact hno _ hmem rfl
  · have : l ≠ [] := by
      intro h0
      subst h0
      simp at hlast
    have := List.length_dropLast l
    have := List.length_pos.mpr ‹l ≠ []›
    omega

theorem fgets_text_line {l : List Char} (h : is_text_line l = true) (rest : List Char) :
    fgets 256 (l ++ rest) = some (l, rest) := by
  obtain ⟨body, rfl, hb, hlen⟩ := is_text_line_split h
  have := fgets_aux_line body rest 255 hb hlen
  cases body with
  | nil => simpa [fgets] using this
  | cons c t => simpa [fgets] using this

/-- A text made of lines that fit the buffer is read back line by line. -/
theorem fgets_lines_join (ls : List (List Char)) (hls : ∀ l ∈ ls, is_text_line l = true) :
    fgets_lines ls.flatten = ls := by
  induction ls with
  | nil => rfl
  | cons l ls ih =>
    rw [fgets_lines_unfold, List.flatten_cons, fgets_text_line (hls l (by simp))]
    simp only
    rw [ih (fun x hx => hls x (by simp [hx]))]

/-! ### The loops of `get_cpu_stats` and `get_network_speed` -/

theorem strncmp_eq_cpu (l : List Char) :
    strncmp_eq 3 l "cpu".toList = decide ("cpu".toList <+: l) := by
  have hc : "cpu".toList = ['c', 'p', 'u'] := rfl
  rw [hc]
  rcases l with _ | ⟨a, _ | ⟨b, _ | ⟨c, t⟩⟩⟩
  · decide
  · by_cases ha : a = 'c'
    · subst ha; decide
    · have ha' : ¬ 'c' = a := fun h => ha h.symm
      simp [strncmp_eq, ha, ha']
  · by_cases ha : a = 'c'
    · subst ha
      by_cases hb : b = 'p'
      · subst hb; decide
      · have hb' : ¬ 'p' = b := fun h => hb h.symm
        simp [strncmp_eq, hb, hb', NUL]
    · have ha' : ¬ 'c' = a := fun h => ha h.symm
      simp [strncmp_eq, ha, ha']
  · by_cases ha : a = 'c'
    · subst ha
      by_cases hb : b = 'p'
      · subst hb
        by_cases hc' : c = 'u'
        · subst hc'
          simp [strncmp_eq, NUL]
        · have hcu : ¬ 'u' = c := fun h => hc' h.symm
          simp [strncmp_eq, hc', hcu, NUL]
      · have hb' : ¬ 'p' = b := fun h => hb h.symm
        simp [strncmp_eq, hb, hb', NUL]
    · have ha' : ¬ 'c' = a := fun h => ha h.symm
      simp [strncmp_eq, ha, ha']

/-- Entry `k` after the loop started at index `i`: it is written, once, exactly when
`i ≤ k ≤ cpu_count` and there is a `(k - i)`-th line with the prefix `cpu`. -/
theorem get_cpu_stats_loop_entry (cpu_count : ℤ) (lines : List (List Char))
    (stats : ℕ → CPUStats) (i k : ℕ) :
    get_cpu_stats_loop cpu_count lines stats i k =
      if i ≤ k ∧ (k : ℤ) ≤ cpu_count then
        match (cpu_lines lines)[k - i]? with
        | some l => scan_cpu_line l (stats k)
        | none => stats k
      else stats k := by
  induction lines generalizing stats i with
  | nil => simp [get_cpu_stats_loop, cpu_lines]
  | cons line rest ih =>
    unfold get_cpu_stats_loop
    by_cases hi : (i : ℤ) ≤ cpu_count
    · rw [if_pos hi]
      by_cases hp : "cpu".toList <+: line
      · have hp' : strncmp_eq 3 line "cpu".toList = true := by
          rw [strncmp_eq_cpu]; exact decide_eq_true hp
        have hf : cpu_lines (line :: rest) = line :: cpu_lines rest := by
          have hp2 : ['c', 'p', 'u'] <+: line := hp
          simp [cpu_lines, List.filter_cons, hp2]
        rw [if_pos hp', ih, hf]
        rcases Nat.lt_trichotomy k i with hlt | heq | hgt
        · have h1 : ¬ (i + 1 ≤ k ∧ (k : ℤ) ≤ cpu_count) := by omega
          have h2 : ¬ (i ≤ k ∧ (k : ℤ) ≤ cpu_count) := by omega
          rw [if_neg h1, if_neg h2]
          simp [write_entry, Nat.ne_of_lt hlt]
        · subst heq
          have h1 : ¬ (k + 1 ≤ k ∧ (k : ℤ) ≤ cpu_count) := by omega
          rw [if_neg h1, if_pos ⟨le_rfl, hi⟩]
          simp [write_entry]
        · have hw : write_entry stats i (scan_cpu_line line (stats i)) k = stats k := by
            simp [write_entry, Nat.ne_of_gt hgt]
          obtain ⟨d, hd⟩ : ∃ d, k - i = d + 1 := ⟨k - i - 1, by omega⟩
          have hd' : k - (i + 1) = d := by omega
          rw [hw, hd, hd', List.getElem?_cons_succ]
          by_cases hk : (k : ℤ) ≤ cpu_count
          · rw [if_pos ⟨by omega, hk⟩, if_pos ⟨by omega, hk⟩]
          · rw [if_neg (fun h => hk h.2), if_neg (fun h => hk h.2)]
      · have hp' : ¬ strncmp_eq 3 line "cpu".toList = true := by
          rw [strncmp_eq_cpu]; simpa using hp
        have hf : cpu_lines (line :: rest) = cpu_lines rest := by
          have hp2 : ¬ ['c', 'p', 'u'] <+: line := hp
          simp [cpu_lines, List.filter_cons, hp2]
        rw [if_neg hp', ih, hf]
    · rw [if_neg hi]
      have h2 : ¬ (i ≤ k ∧ (k : ℤ) ≤ cpu_count) := by omega
      rw [if_neg h2]

theorem cpu_lines_append (ls extra : List (List Char)) :
    cpu_lines (ls ++ extra) = cpu_lines ls ++ cpu_lines extra := by
  simp [cpu_lines]

theorem get_network_speed_loop_not_found (iface : List Char) (lines : List (List Char))
    (rx_speed tx_speed : ℕ) (h : ∀ line ∈ lines, name_matches line iface = false) :
    get_network_speed_loop iface lines rx_speed tx_speed = (rx_speed, tx_speed) := by
  induction lines with
  | nil => rfl
  | cons line rest ih =>
    have hrest := ih (fun l hl => h l (by simp [hl]))
    have hline := h line (by simp)
    unfold get_network_speed_loop
    split_ifs with hret
    · split
      · rename_i if_name rx_bytes tx_bytes heq
        have hname : parsed_if_name line = some if_name := by
          simp [parsed_if_name, heq]
        simp only [name_matches, hname] at hline
        rw [if_neg (by simp [hline])]
        exact hrest
      · exact hrest
    · exact hrest

theorem is_inet_iff (ifa : IfAddrs) : ifa.is_inet = true ↔ ifa.HasIPv4 := by
  unfold IfAddrs.is_inet IfAddrs.HasIPv4
  cases ifa.ifa_addr with
  | none => simp
  | some addr => simp

theorem get_first_network_iface_loop_some (list : List IfAddrs) (name : List Char) :
    get_first_network_iface_loop list = some name ↔
      ∃ before ifa after, list = before ++ ifa :: after ∧ (∀ x ∈ before, ¬ x.HasIPv4) ∧
        ifa.HasIPv4 ∧ name = ifa.ifa_name := by
  induction list with
  | nil => simp [get_first_network_iface_loop]
  | cons a rest ih =>
    unfold get_first_network_iface_loop
    by_cases ha : a.is_inet = true
    · rw [if_pos ha]
      constructor
      · intro h
        refine ⟨[], a, rest, rfl, by simp, (is_inet_iff a).mp ha, ?_⟩
        exact (Option.some.inj h).symm
      · rintro ⟨before, ifa, after, hl, hb, hi, hn⟩
        cases before with
        | nil =>
          simp only [List.nil_append, List.cons.injEq] at hl
          rw [hn, ← hl.1]
        | cons b bs =>
          simp only [List.cons_append, List.cons.injEq] at hl
          exact absurd ((is_inet_iff a).mp ha) (hl.1 ▸ hb b (by simp))
    · rw [if_neg ha, ih]
      constructor
      · rintro ⟨before, ifa, after, hl, hb, hi, hn⟩
        refine ⟨a :: before, ifa, after, by simp [hl], ?_, hi, hn⟩
        intro x hx
        rcases List.mem_cons.mp hx with rfl | hx
        · exact fun h => ha ((is_inet_iff _).mpr h)
        · exact hb x hx
      · rintro ⟨before, ifa, after, hl, hb, hi, hn⟩
        cases before with
        | nil =>
          simp only [List.nil_append, List.cons.injEq] at hl
          exact absurd ((is_inet_iff a).mpr (hl.1 ▸ hi)) ha
        | cons b bs =>
          simp only [List.cons_append, List.cons.injEq] at hl
          exact ⟨bs, ifa, after, hl.2, fun x hx => hb x (by simp [hx]), hi, hn⟩

theorem get_first_network_iface_loop_none (list : List IfAddrs) :
    get_first_network_iface_loop list = none ↔ ∀ x ∈ list, ¬ x.HasIPv4 := by
  induction list with
  | nil => simp [get_first_network_iface_loop]
  | cons a rest ih =>
    unfold get_first_network_iface_loop
    by_cases ha : a.is_inet = true
    · rw [if_pos ha]
      constructor
      · intro h
        cases h
      · intro h
        exact absurd ((is_inet_iff a).mp ha) (h a (by simp))
    · rw [if_neg ha, ih]
      simp only [List.mem_cons, forall_eq_or_imp, iff_and_self]
      intro _ h
      exact ha ((is_inet_iff a).mpr h)

/-! ### Helper lemmas for the load percentage claims -/

theorem roundNearest_two_thirds : roundNearest (20 / 30) = 6004799503160661 / 2 ^ 53 := by
  rw [roundNearest_of_binade (20 / 30) (-1) (by norm_num) (by norm_num) (by norm_num)]
  have : roundHalfEven (20 / 30 / 2 ^ ((-1 : ℤ) - 52)) = 6004799503160661 := by
    unfold roundHalfEven
    norm_num [Int.floor_eq_iff]
  rw [this]
  norm_num

theorem roundNearest_two_thirds_mul_100 :
    roundNearest (6004799503160661 / 2 ^ 53 * 100) = 2345624805922133 / 2 ^ 45 := by
  rw [roundNearest_of_binade _ 6 (by norm_num) (by norm_num) (by norm_num)]
  have : roundHalfEven (6004799503160661 / 2 ^ 53 * 100 / 2 ^ ((6 : ℤ) - 52)) =
      4691249611844266 := by
    unfold roundHalfEven
    norm_num [Int.floor_eq_iff]
  rw [this]
  norm_num

/-- The formula at `total_diff = 30`, `idle_diff = 10`: the `double` nearest to
`(20 / 30 rounded) * 100`, printed by C as 66.66666666666666. -/
theorem spec_load_30_10 : spec_load 30 10 = Double.fin (2345624805922133 / 2 ^ 45) := by
  have h20 := roundToDouble_natCast 20 (by norm_num)
  have h30 := roundToDouble_natCast 30 (by norm_num)
  have hq : roundToDouble (20 / 30) = Double.fin (6004799503160661 / 2 ^ 53) := by
    unfold roundToDouble
    rw [roundNearest_two_thirds, if_neg (by norm_num)]
  have hm : roundToDouble (6004799503160661 / 2 ^ 53 * 100) =
      Double.fin (2345624805922133 / 2 ^ 45) := by
    unfold roundToDouble
    rw [roundNearest_two_thirds_mul_100, if_neg (by norm_num)]
  unfold spec_load
  rw [ofInt_100]
  unfold Double.ofU64
  rw [show ((30 - 10 : ℕ) : ℚ) = ((20 : ℕ) : ℚ) by norm_num, h20, h30]
  simp only [Double.div, Double.mul]
  rw [if_neg (by norm_num)]
  rw [show (((20 : ℕ) : ℚ) / ((30 : ℕ) : ℚ)) = 20 / 30 by norm_num, hq]
  simp only [Double.mul]
  exact hm

theorem calculate_example :
    calculate_cpu_load_percentage example_prev example_curr =
      Double.fin (2345624805922133 / 2 ^ 45) := by
  have ht : spec_total_diff example_prev example_curr = 30 := by decide
  have hi : spec_idle_diff example_prev example_curr = 10 := by decide
  rw [calculate_eq_spec_load _ _ (by decide) (by decide), ht, hi, spec_load_30_10]

theorem total_time_lt (s : CPUStats) : total_time s < 2 ^ 64 := by
  unfold total_time
  generalize add64 (add64 (add64 (add64 (add64 s.user s.nice) s.system) s.idle) s.iowait)
    s.irq = a
  unfold add64
  omega

theorem sub64_lt (a b : ℕ) : sub64 a b < 2 ^ 64 := by
  unfold sub64
  omega

theorem sub64_zero_left (i : ℕ) (hi : i < 2 ^ 64) : sub64 0 i = 0 ↔ i = 0 := by
  unfold sub64
  omega

theorem sub64_self (a : ℕ) : sub64 a a = 0 := by
  unfold sub64
  omega

/-- With `total_time_diff == 0` the quotient is `0.0 / 0.0` or `x / 0.0` with `x > 0`. -/
theorem calculate_of_total_zero (prev curr : CPUStats) (h : total_time_diff prev curr = 0) :
    calculate_cpu_load_percentage prev curr =
      (if idle_time_diff prev curr = 0 then Double.nan else Double.inf) := by
  unfold total_time_diff at h
  unfold calculate_cpu_load_percentage idle_time_diff
  simp only
  rw [h]
  have hi : sub64 curr.idle prev.idle < 2 ^ 64 := sub64_lt _ _
  generalize sub64 curr.idle prev.idle = i at hi
  have hz : Double.ofU64 0 = Double.fin 0 := by
    have := roundToDouble_natCast 0 (by norm_num)
    simpa [Double.ofU64] using this
  obtain ⟨hn, _, _⟩ := ofU64_fin (sub64 0 i) (sub64_lt _ _)
  rw [hz, hn, ofInt_100]
  by_cases hi0 : i = 0
  · subst hi0
    have : sub64 0 0 = 0 := sub64_self 0
    rw [this]
    simp [Double.div, Double.mul, roundNearest_zero]
  · have hne : sub64 0 i ≠ 0 := fun h0 => hi0 ((sub64_zero_left i hi).mp h0)
    have hpos := roundNearest_pos_of_pos (sub64 0 i) (Nat.pos_of_ne_zero hne)
    have hne' : roundNearest ((sub64 0 i : ℕ) : ℚ) ≠ 0 := by linarith
    simp [Double.div, Double.mul, hne', hi0]

/-! ## Claims about `calculate_cpu_load_percentage` and the network report -/

/-- C1 fails as stated on the worked example: the difference of the sums is 30, not 20, and the
load is not 50.0. -/
theorem calculate_cpu_load_percentage_example_not_50 :
    NonDecreasing example_prev example_curr ∧ example_curr.sum < 2 ^ 64 ∧
      0 < spec_total_diff example_prev example_curr ∧
      spec_total_diff example_prev example_curr ≠ 20 ∧
      calculate_cpu_load_percentage example_prev example_curr ≠ Double.fin 50 := by
  refine ⟨by decide, by decide, by decide, by decide, ?_⟩
  rw [calculate_example]
  intro h
  injection h with h
  norm_num at h

/-- C1 (amended): when every counter is non-decreasing from `prev` to `curr`, the sums do not
overflow 64 bits and `total_diff > 0`, `calculate_cpu_load_percentage prev curr` is the
`double` value of `(total_diff - idle_diff) / total_diff * 100` for the exact differences; on
the specification's worked example `total_diff = 30`, `idle_diff = 10` and the load is the
`double` `2345624805922133 / 2 ^ 45` (66.66666666666666). -/
theorem calculate_cpu_load_percentage_formula (prev curr : CPUStats)
    (hmono : NonDecreasing prev curr) (hsum : curr.sum < 2 ^ 64)
    (_hpos : 0 < spec_total_diff prev curr) :
    calculate_cpu_load_percentage prev curr =
        spec_load (spec_total_diff prev curr) (spec_idle_diff prev curr) ∧
      (prev = example_prev → curr = example_curr →
        spec_total_diff prev curr = 30 ∧ spec_idle_diff prev curr = 10 ∧
          calculate_cpu_load_percentage prev curr = Double.fin (2345624805922133 / 2 ^ 45)) := by
  refine ⟨calculate_eq_spec_load prev curr hmono hsum, ?_⟩
  intro hp hc
  subst hp hc
  exact ⟨by decide, by decide, calculate_example⟩

/-- The worked example satisfies the hypotheses of C1 and evaluates to 66.66666666666666. -/
theorem calculate_cpu_load_percentage_formula_witness :
    NonDecreasing example_prev example_curr ∧ example_curr.sum < 2 ^ 64 ∧
      0 < spec_total_diff example_prev example_curr ∧
      calculate_cpu_load_percentage example_prev example_curr =
        Double.fin (2345624805922133 / 2 ^ 45) :=
  ⟨by decide, by decide, by decide,
    ((calculate_cpu_load_percentage_formula example_prev example_curr (by decide) (by decide)
      (by decide)).2 rfl rfl).2.2⟩

/-- C2: for every valid pair of CPU tuples (counters non-decreasing, sums not overflowing
64 bits) with `total_diff > 0`, the returned load is a finite `double` in `[0, 100]`. -/
theorem calculate_cpu_load_percentage_range (prev curr : CPUStats)
    (hmono : NonDecreasing prev curr) (hsum : curr.sum < 2 ^ 64)
    (hpos : 0 < spec_total_diff prev curr) :
    ∃ v : ℚ, calculate_cpu_load_percentage prev curr = Double.fin v ∧ 0 ≤ v ∧ v ≤ 100 := by
  rw [calculate_eq_spec_load prev curr hmono hsum]
  apply spec_load_bounds _ _ hpos
  exact lt_of_le_of_lt (Nat.sub_le _ _) hsum

/-- A pair with one busy tick out of three: the load is a finite value in `[0, 100]`. -/
theorem calculate_cpu_load_percentage_range_witness :
    NonDecreasing example_prev { example_prev with user := 101, idle := 852 } ∧
      ∃ v : ℚ, calculate_cpu_load_percentage example_prev
        { example_prev with user := 101, idle := 852 } = Double.fin v ∧ 0 ≤ v ∧ v ≤ 100 :=
  ⟨by decide, calculate_cpu_load_percentage_range example_prev
    { example_prev with user := 101, idle := 852 } (by decide) (by decide) (by decide)⟩

/-- C3 fails as stated: passing the worked example's first snapshot as both `prev` and `curr`
gives `total_time_diff = 0` and the result is NaN, not the fallback 0.0. -/
theorem calculate_cpu_load_percentage_same_snapshot_nan :
    total_time_diff example_prev example_prev = 0 ∧
      calculate_cpu_load_percentage example_prev example_prev = Double.nan ∧
      calculate_cpu_load_percentage example_prev example_prev ≠ Double.fin 0 := by
  have h0 : total_time_diff example_prev example_prev = 0 := sub64_self _
  have hi : idle_time_diff example_prev example_prev = 0 := sub64_self _
  have := calculate_of_total_zero _ _ h0
  rw [hi, if_pos rfl] at this
  exact ⟨h0, this, by rw [this]; exact Double.noConfusion⟩

/-- C3 (amended): when `total_time_diff == 0` the division is unguarded: the result is NaN if
`idle_time_diff` is 0 as well, in particular when the same snapshot is passed as both
arguments, and +infinity otherwise; it is never 0.0. -/
theorem calculate_cpu_load_percentage_zero_diff (prev curr : CPUStats)
    (h : total_time_diff prev curr = 0) :
    calculate_cpu_load_percentage prev curr =
        (if idle_time_diff prev curr = 0 then Double.nan else Double.inf) ∧
      calculate_cpu_load_percentage prev curr ≠ Double.fin 0 ∧
      (prev = curr → calculate_cpu_load_percentage prev curr = Double.nan) := by
  have hc := calculate_of_total_zero prev curr h
  refine ⟨hc, ?_, ?_⟩
  · rw [hc]
    split_ifs <;> exact Double.noConfusion
  · intro he
    subst he
    rw [hc, show idle_time_diff prev prev = 0 from sub64_self _, if_pos rfl]

/-- A pair whose sums agree while idle time grew: the result is +infinity. -/
theorem calculate_cpu_load_percentage_zero_diff_witness :
    total_time_diff { example_prev with user := 10 } { example_prev with user := 0, idle := 860 }
        = 0 ∧
      calculate_cpu_load_percentage { example_prev with user := 10 }
        { example_prev with user := 0, idle := 860 } = Double.inf :=
  ⟨by decide, (calculate_cpu_load_percentage_zero_diff { example_prev with user := 10 }
    { example_prev with user := 0, idle := 860 } (by decide)).1⟩

/-- C6 (the code at the failing input): with `rx_diff = tx_diff = 131072` bytes the printed RX
value is exactly 1.0 while the printed TX value is at least 1.125, because the RX divisor is
`1024 * 1024 / 8 = 131072` and the TX divisor is `1024 * 1024 / 9 = 116508`. -/
theorem network_report_rx_tx_differ :
    (network_report 0 0 131072 131072).rx = Double.fin 1 ∧
      (∃ v : ℚ, (network_report 0 0 131072 131072).tx = Double.fin v ∧ 9 / 8 ≤ v) ∧
      (network_report 0 0 131072 131072).rx ≠ (network_report 0 0 131072 131072).tx := by
  have hd : sub64 131072 0 = 131072 := by decide
  have hrx : (network_report 0 0 131072 131072).rx = Double.fin 1 := by
    have h := roundToDouble_natCast 131072 (by norm_num)
    have h1 := roundToDouble_natCast 1 (by norm_num)
    simp only [network_report, hd, Double.ofU64, Double.ofInt]
    norm_num at h h1 ⊢
    rw [h]
    simp [Double.div, h1]
  have htx : ∃ v : ℚ, (network_report 0 0 131072 131072).tx = Double.fin v ∧ 9 / 8 ≤ v := by
    have h := roundToDouble_natCast 131072 (by norm_num)
    have h' := roundToDouble_natCast 116508 (by norm_num)
    have h98 : roundNearest (9 / 8 : ℚ) = 9 / 8 := by
      have hr := roundNearest_of_representable 9 (-3) (by norm_num) (by norm_num)
      have e : ((9 : ℕ) : ℚ) * 2 ^ (-3 : ℤ) = 9 / 8 := by norm_num
      rwa [e] at hr
    have h2 : roundNearest (2 : ℚ) = 2 := by
      simpa using roundNearest_natCast 2 (by norm_num)
    have hlo := roundNearest_mono (x := 9 / 8) (y := 131072 / 116508) (by norm_num) (by norm_num)
    rw [h98] at hlo
    obtain ⟨hf, _, _⟩ := roundToDouble_of_le (x := 131072 / 116508) (b := 2) (by norm_num) h2
      (by norm_num) (by norm_num)
    norm_num at hf hlo
    refine ⟨roundNearest (32768 / 29127), ?_, hlo⟩
    simp only [network_report, hd, Double.ofU64, Double.ofInt]
    norm_num at h h' ⊢
    rw [h, h']
    simp only [Double.div]
    rw [if_neg (by norm_num), show (131072 : ℚ) / 116508 = 32768 / 29127 by norm_num]
    exact hf
  refine ⟨hrx, htx, ?_⟩
  obtain ⟨v, hv, hle⟩ := htx
  rw [hrx, hv]
  intro heq
  injection heq with heq
  rw [← heq] at hle
  norm_num at hle

/-! ## Claims about the counter readers and interface discovery -/

/-- C4 (the code at the failing input): on the aggregate line `cpu  1 2 3 4 5 6 7` the
directive `%*d` consumes the first number, so entry 0 gets `user = 2`, ..., `irq = 7` and
`softirq` keeps its old content, while the per-core line `cpu0 1 2 3 4 5 6 7` is stored in
the stated order `user = 1`, ..., `softirq = 7`. -/
theorem get_cpu_stats_aggregate_line_shifted :
    (get_cpu_stats (some proc_stat_lines.flatten) (fun _ => stale_entry) 2).2 0 =
        { user := 2, nice := 3, system := 4, idle := 5, iowait := 6, irq := 7, softirq := 99 } ∧
      (get_cpu_stats (some proc_stat_lines.flatten) (fun _ => stale_entry) 2).2 1 =
        { user := 1, nice := 2, system := 3, idle := 4, iowait := 5, irq := 6, softirq := 7 } := by
  decide

/-- C5 (the code at the failing input): for the line `eth0: 1 2 3 ... 16` and the interface
`eth0` the call returns 0 with `rx = 2` and `tx = 10`, the packet columns, not the byte
columns 1 and 9. -/
theorem get_network_speed_reads_packet_columns :
    get_network_speed (some proc_net_dev_example) "eth0".toList 0 0 = (0, 2, 10) := by
  decide

/-- C7: when the table can be opened and no line read from it yields an interface name that
`strcmp` finds equal to the requested one, `get_network_speed` returns 0 and both outputs
keep the values they held before the call. -/
theorem get_network_speed_not_found (file iface : List Char) (rx_speed tx_speed : ℕ)
    (h : ∀ line ∈ fgets_lines file, name_matches line iface = false) :
    get_network_speed (some file) iface rx_speed tx_speed = (0, rx_speed, tx_speed) := by
  unfold get_network_speed
  simp only
  rw [get_network_speed_loop_not_found iface _ rx_speed tx_speed h]

/-- The example table has no interface `wlan0`: the outputs 77 and 88 are returned unchanged
together with the return code 0. -/
theorem get_network_speed_not_found_witness :
    (∀ line ∈ fgets_lines proc_net_dev_example, name_matches line "wlan0".toList = false) ∧
      get_network_speed (some proc_net_dev_example) "wlan0".toList 77 88 = (0, 77, 88) :=
  ⟨by decide, get_network_speed_not_found proc_net_dev_example "wlan0".toList 77 88 (by decide)⟩

/-- C8 fails as stated: a block size of 4096 and `2 ^ 52` blocks are valid `unsigned long`
values of a successful call, yet `total` is 0 and not the product `2 ^ 64`. -/
theorem get_disk_space_product_wraps :
    get_disk_space (some { f_frsize := 4096, f_blocks := 2 ^ 52, f_bfree := 400 }) 0 0 =
        (0, 0, 1638400) ∧
      (get_disk_space (some { f_frsize := 4096, f_blocks := 2 ^ 52, f_bfree := 400 }) 0 0).2.1 ≠
        4096 * 2 ^ 52 := by
  decide

/-- C8 (amended): after a successful statistics call `get_disk_space` returns 0 and sets
`total` and `free` to the products `block_size × block_count` and
`block_size × free_block_count` reduced modulo `2 ^ 64`, which are the products themselves
whenever these are below `2 ^ 64`; when the call fails it returns the non-zero code 1 and
leaves both outputs as they were. -/
theorem get_disk_space_products (stat : StatVfs) (total_space free_space : ℕ)
    (htotal : stat.f_frsize * stat.f_blocks < 2 ^ 64)
    (hfree : stat.f_frsize * stat.f_bfree < 2 ^ 64) :
    get_disk_space (some stat) total_space free_space =
        (0, stat.f_frsize * stat.f_blocks, stat.f_frsize * stat.f_bfree) ∧
      (∀ stat' : StatVfs, get_disk_space (some stat') total_space free_space =
        (0, stat'.f_frsize * stat'.f_blocks % 2 ^ 64, stat'.f_frsize * stat'.f_bfree % 2 ^ 64)) ∧
      get_disk_space none total_space free_space = (1, total_space, free_space) := by
  refine ⟨?_, fun _ => rfl, rfl⟩
  simp only [get_disk_space, mul64, Nat.mod_eq_of_lt htotal, Nat.mod_eq_of_lt hfree]

/-- The specification's disk example: block size 4096, 1000 blocks, 400 free blocks give
4,096,000 and 1,638,400 bytes. -/
theorem get_disk_space_products_witness :
    get_disk_space (some { f_frsize := 4096, f_blocks := 1000, f_bfree := 400 }) 0 0 =
      (0, 4096000, 1638400) :=
  (get_disk_space_products { f_frsize := 4096, f_blocks := 1000, f_bfree := 400 } 0 0
    (by decide) (by decide)).1

/-- C9: `get_first_network_iface` returns the name of the first entry, in enumeration order,
that has an address of family `AF_INET`, skipping entries without an address or with another
family; it returns NULL exactly when no entry has an IPv4 address, in particular for the
empty list, and `main` then returns 1 before the sampling loop. -/
theorem get_first_network_iface_first_ipv4 (list : List IfAddrs) (cpuinfo : Option (List Char)) :
    (∀ name, get_first_network_iface (some list) = some name ↔
      ∃ before ifa after, list = before ++ ifa :: after ∧ (∀ x ∈ before, ¬ x.HasIPv4) ∧
        ifa.HasIPv4 ∧ name = ifa.ifa_name) ∧
    (get_first_network_iface (some list) = none ↔ ∀ x ∈ list, ¬ x.HasIPv4) ∧
    get_first_network_iface (some []) = none ∧
    (get_first_network_iface (some list) = none →
      main_startup cpuinfo (some list) = Startup.exit 1) := by
  refine ⟨fun name => get_first_network_iface_loop_some list name,
    get_first_network_iface_loop_none list, rfl, ?_⟩
  intro h
  unfold main_startup
  simp only [h]
  split_ifs <;> rfl

/-- C10: for a text whose lines fit the 256-byte buffer, `get_cpu_stats` returns 0, entry `k`
with `k ≤ cpu_count` receives the `k`-th line that begins with `cpu` (and keeps its content
when there is no such line), every entry with index greater than `cpu_count` keeps its
content, and once `cpu_count + 1` lines with the prefix have been read any further lines
change nothing. -/
theorem get_cpu_stats_assigns_cpu_lines (ls : List (List Char))
    (hls : ∀ l ∈ ls, is_text_line l = true) (stats : ℕ → CPUStats) (cpu_count : ℤ) :
    (get_cpu_stats (some ls.flatten) stats cpu_count).1 = 0 ∧
    (∀ k : ℕ, (get_cpu_stats (some ls.flatten) stats cpu_count).2 k =
      if (k : ℤ) ≤ cpu_count then
        match (cpu_lines ls)[k]? with
        | some l => scan_cpu_line l (stats k)
        | none => stats k
      else stats k) ∧
    (∀ extra : List (List Char), (∀ l ∈ extra, is_text_line l = true) →
      cpu_count + 1 ≤ (cpu_lines ls).length →
      (get_cpu_stats (some (ls ++ extra).flatten) stats cpu_count).2 =
        (get_cpu_stats (some ls.flatten) stats cpu_count).2) := by
  have key : ∀ ls' : List (List Char), (∀ l ∈ ls', is_text_line l = true) → ∀ k : ℕ,
      (get_cpu_stats (some ls'.flatten) stats cpu_count).2 k =
        if (k : ℤ) ≤ cpu_count then
          match (cpu_lines ls')[k]? with
          | some l => scan_cpu_line l (stats k)
          | none => stats k
        else stats k := by
    intro ls' hls' k
    simp only [get_cpu_stats]
    rw [fgets_lines_join ls' hls', get_cpu_stats_loop_entry]
    simp
  refine ⟨rfl, key ls hls, ?_⟩
  intro extra hextra hlen
  funext k
  have hall : ∀ l ∈ ls ++ extra, is_text_line l = true := by
    intro l hl
    rcases List.mem_append.mp hl with h | h
    · exact hls l h
    · exact hextra l h
  rw [key (ls ++ extra) hall k, key ls hls k]
  by_cases hk : (k : ℤ) ≤ cpu_count
  · have hlt : k < (cpu_lines ls).length := by omega
    rw [cpu_lines_append, List.getElem?_append_left hlt]
  · rw [if_neg hk, if_neg hk]

/-- The example text with `cpu_count = 1`: the call returns 0 and entry 2, beyond
`cpu_count`, keeps its content although a third line with the prefix exists. -/
theorem get_cpu_stats_assigns_cpu_lines_witness :
    (∀ l ∈ proc_stat_lines, is_text_line l = true) ∧
      (get_cpu_stats (some proc_stat_lines.flatten) (fun _ => stale_entry) 1).1 = 0 ∧
      (get_cpu_stats (some proc_stat_lines.flatten) (fun _ => stale_entry) 1).2 2 =
        stale_entry :=
  ⟨by decide,
    (get_cpu_stats_assigns_cpu_lines proc_stat_lines (by decide) (fun _ => stale_entry) 1).1,
    ((get_cpu_stats_assigns_cpu_lines proc_stat_lines (by decide) (fun _ => stale_entry) 1).2.1
      2).trans (by decide)⟩

end CpuLoad
